import Mathlib

/-!
Verification of the CV Document Formatting Engine of `app.py`
(repository `sohao0819/cv-optimizer`).

The Python source is shallowly embedded: strings are `List Char`
(written `Str`), Python string primitives (`str.split`, `str.strip`,
`str.replace` with a one-character needle, `sep.join`, substring
containment `in`, `str.split(sep, 1)`) are modelled as executable Lean
functions below, and the functions `sanitize_text`,
`PDF.parse_cv_sections`, `PDF.format_cv` (its Experience branch),
`PDF.add_experience`, `PDF.add_wrapped_text` and `PDF.add_bullet_point`
are translated line by line.  `str.upper`/`str.lower` are modelled
character-wise with `Char.toUpper`/`Char.toLower`, and the floating-point
widths returned by `get_string_width` are modelled by an arbitrary
integer-valued measurement function.
-/

set_option autoImplicit false

namespace CvOptimizer

/-- Strings are modelled as lists of characters. -/
abbrev Str := List Char

/-- The whitespace class used by Python's `str.split()` / `str.strip()`. -/
def pyIsSpace (c : Char) : Bool :=
  c == ' ' || c == '\t' || c == '\n' || c == '\r' || c == '\x0b' || c == '\x0c' ||
  c == '\x1c' || c == '\x1d' || c == '\x1e' || c == '\x1f' || c == '\u0085' ||
  c == ' ' || c == ' ' ||
  (decide (' ' ≤ c) && decide (c ≤ ' ')) ||
  c == ' ' || c == ' ' || c == ' ' || c == ' ' || c == '　'

/-- Python `str.strip()`: drop leading and trailing whitespace. -/
def pyStrip (s : Str) : Str :=
  ((s.dropWhile pyIsSpace).reverse.dropWhile pyIsSpace).reverse

/-- Helper for `splitLines`: accumulates the current line (reversed). -/
def splitLinesAux : Str → Str → List Str
  | [], acc => [acc.reverse]
  | c :: rest, acc =>
    if c = '\n' then acc.reverse :: splitLinesAux rest []
    else splitLinesAux rest (c :: acc)

/-- Python `s.split('\n')`: split at every newline, keeping empty pieces. -/
def splitLines (s : Str) : List Str :=
  splitLinesAux s []

/-- Helper for `pySplitWs`: accumulates the current word (reversed). -/
def splitWsAux : Str → Str → List Str
  | [], acc => if acc = [] then [] else [acc.reverse]
  | c :: rest, acc =>
    if pyIsSpace c then
      if acc = [] then splitWsAux rest []
      else acc.reverse :: splitWsAux rest []
    else splitWsAux rest (c :: acc)

/-- Python `s.split()` with no argument: maximal runs of non-whitespace. -/
def pySplitWs (s : Str) : List Str :=
  splitWsAux s []

/-- Python `sep.join(words)` for a one-character separator `sep`. -/
def joinSep (sep : Char) : List Str → Str
  | [] => []
  | [w] => w
  | w :: rest => w ++ sep :: joinSep sep rest

/-- Does `pat` occur at the very start of `s`? -/
def leadsWith : Str → Str → Bool
  | [], _ => true
  | _ :: _, [] => false
  | a :: as, b :: bs => a == b && leadsWith as bs

/-- First occurrence of `sep` in `s`: `some (before, after)`, else `none`. -/
def findSplit (sep : Str) : Str → Option (Str × Str)
  | [] => if leadsWith sep [] then some ([], []) else none
  | c :: rest =>
    if leadsWith sep (c :: rest) then some ([], (c :: rest).drop sep.length)
    else (findSplit sep rest).map (fun pq => (c :: pq.1, pq.2))

/-- Python substring containment `sep in s`. -/
def hasSub (sep : Str) (s : Str) : Bool :=
  (findSplit sep s).isSome

/-- Fuelled worker for `splitOnSeq`. -/
def splitOnSeqF (sep : Str) : Nat → Str → List Str
  | 0, s => [s]
  | fuel + 1, s =>
    match findSplit sep s with
    | none => [s]
    | some (p, q) => p :: splitOnSeqF sep fuel q

/-- Python `s.split(sep)` for a non-empty separator string `sep`. -/
def splitOnSeq (sep : Str) (s : Str) : List Str :=
  splitOnSeqF sep (s.length + 1) s

/-- Python `s.split(sep, 1)` viewed as a pair (second part empty when absent). -/
def pySplit1 (sep : Str) (s : Str) : Str × Str :=
  match findSplit sep s with
  | some pq => pq
  | none => (s, [])

/-- Python `s.replace(old, new)` for a one-character `old`. -/
def replaceChar (old : Char) (new : Str) : Str → Str
  | [] => []
  | c :: rest => (if c = old then new else [c]) ++ replaceChar old new rest

/-- The character-replacement phase of `sanitize_text` (app.py lines 98-117);
the innermost replacement (bullet `•` to `*`) is applied first, matching
the source order. -/
def replaceAll (s : Str) : Str :=
  replaceChar ' ' ('\n' :: []) <|
  replaceChar ' ' ('\n' :: []) <|
  replaceChar '﻿' [] <|
  replaceChar ' ' (' ' :: []) <|
  replaceChar '‍' [] <|
  replaceChar '‌' [] <|
  replaceChar '​' [] <|
  replaceChar ' ' (' ' :: []) <|
  replaceChar '–' ('-' :: []) <|
  replaceChar '—' ('-' :: []) <|
  replaceChar '→' ('-' :: '>' :: []) <|
  replaceChar '◦' ('*' :: []) <|
  replaceChar '○' ('*' :: []) <|
  replaceChar '·' ('*' :: []) <|
  replaceChar '•' ('*' :: []) s

/-- app.py `sanitize_text` (lines 93-122): the replacement table followed by
`' '.join(text.split())`. -/
def sanitize_text (s : Str) : Str :=
  joinSep ' ' (pySplitWs (replaceAll s))

/-! ### The section parser (`PDF.parse_cv_sections`, app.py lines 407-447) -/

/-- The marker list `PDF.section_markers` (app.py lines 165-179). -/
def section_markers : List Str :=
  ["PERSONAL INFORMATION",
   "PROFESSIONAL SUMMARY",
   "EDUCATION",
   "EXPERIENCE",
   "PROFESSIONAL EXPERIENCE",
   "SKILLS",
   "TECHNICAL SKILLS",
   "PROJECTS",
   "PUBLICATIONS",
   "SELECTED PUBLICATIONS & PATENTS",
   "CERTIFICATIONS",
   "AWARDS & HONORS",
   "LANGUAGES"].map String.toList

/-- The Python dict of sections, as an insertion-ordered association list. -/
abbrev SectionMap := List (Str × Str)

/-- Python `d[k] = v` on an insertion-ordered dict: replace the value if the
key is present, otherwise append the binding at the end. -/
def dictSet (m : SectionMap) (k : Str) (v : Str) : SectionMap :=
  match m with
  | [] => [(k, v)]
  | (k', v') :: rest => if k' = k then (k, v) :: rest else (k', v') :: dictSet rest k v

/-- Python `d.get(k)` / `k in d` on the association list. -/
def dictGet (m : SectionMap) (k : Str) : Option Str :=
  match m with
  | [] => none
  | (k', v') :: rest => if k' = k then some v' else dictGet rest k

/-- Loop state of `parse_cv_sections`: the dict built so far, the current
section key, and the lines accumulated for it. -/
structure ParseState where
  sections : SectionMap
  current : Option Str
  content : List Str

/-- One iteration of the `for line in lines` loop of `parse_cv_sections`
(app.py lines 415-441). -/
def parseLine (st : ParseState) (rawLine : Str) : ParseState :=
  let line := pyStrip rawLine
  if line = [] then st
  else
    let upper := line.map Char.toUpper
    match section_markers.find? (fun m => hasSub m upper || hasSub upper m) with
    | some marker =>
      let sections' :=
        match st.current with
        | some cs => dictSet st.sections cs (joinSep '\n' st.content)
        | none => st.sections
      { sections := sections', current := some marker, content := [] }
    | none =>
      match st.current with
      | some _ => { st with content := st.content ++ [line] }
      | none =>
        { sections := st.sections,
          current := some "PERSONAL INFORMATION".toList,
          content := [line] }

/-- The trailing flush of `parse_cv_sections` (app.py lines 443-445): the
last section is stored only when a section is open and has content. -/
def parseFinish (st : ParseState) : SectionMap :=
  match st.current with
  | some cs =>
    if st.content = [] then st.sections
    else dictSet st.sections cs (joinSep '\n' st.content)
  | none => st.sections

/-- app.py `PDF.parse_cv_sections` (lines 407-447). -/
def parse_cv_sections (cvText : Str) : SectionMap :=
  parseFinish ((splitLines cvText).foldl parseLine ⟨[], none, []⟩)

/-! ### The Experience entry splitter (`PDF.format_cv`, app.py lines 329-354) -/

/-- One Experience entry as assembled by `format_cv` just before it calls
`add_experience`: the `|`-split role and company (stripped), the
dates/location line, and the remaining description lines. -/
structure ExperienceEntry where
  role : Str
  company : Str
  dates_or_location : Str
  description_lines : List Str
  deriving DecidableEq

/-- The separator `"\n\n"` used by the entry splitter. -/
def nlnl : Str := ['\n', '\n']

/-- Entry extraction for one block between blank-line boundaries
(app.py lines 336-353): the block is kept only when it has at least two
non-empty stripped lines; role/company come from the header line split at
`|`, dates from the second line, description from the rest. -/
def expEntryOfBlock (entry : Str) : Option ExperienceEntry :=
  if pyStrip entry = [] then none
  else
    match ((splitLines entry).map pyStrip).filter (fun l => decide (l ≠ [])) with
    | l0 :: l1 :: rest =>
      let rc := if hasSub ['|'] l0 then pySplit1 ['|'] l0 else (l0, [])
      some ⟨pyStrip rc.1, pyStrip rc.2, l1, rest⟩
    | _ => none

/-- Entry extraction for one Experience section content string
(app.py lines 334-353): split on `\n\n` and process each block. -/
def format_experience_entries (content : Str) : List ExperienceEntry :=
  (splitOnSeq nlnl content).filterMap expEntryOfBlock

/-- The section keys treated as Experience sections by `format_cv`
(app.py line 330). -/
def exp_sections : List Str :=
  ["EXPERIENCE", "PROFESSIONAL EXPERIENCE"].map String.toList

/-- The Experience entries produced by `format_cv` for a raw input text:
the map is `parse_cv_sections cvText` (line 279 passes the raw text), and
each present Experience section contributes its entries in order. -/
def format_cv_experience (cvText : Str) : List ExperienceEntry :=
  (exp_sections.filterMap (dictGet (parse_cv_sections cvText))).flatMap
    format_experience_entries

/-- The section map `format_cv` operates on (app.py line 279): it is computed
from the raw `cv_text` argument, with no prior sanitization step. -/
def format_cv_section_map (cvText : Str) : SectionMap :=
  parse_cv_sections cvText

/-! ### Role/company recovery (`PDF.add_experience`, app.py lines 228-242) -/

/-- The body of `add_experience`'s role/company recovery (lines 231-242):
`' - '` first, then case-insensitive `' at '`, then `'|'`, else the whole
line is the role and the `company` argument is kept; both results are
stripped.  The `' at '` branch tests the lowercased string but splits the
original, so it raises `ValueError` (modelled as `none`) when the original
contains no lowercase `' at '`. -/
def add_experience_role_company (role_company : Str) (company : Str) :
    Option (Str × Str) :=
  if hasSub " - ".toList role_company then
    some (pyStrip (pySplit1 " - ".toList role_company).1,
      pyStrip (pySplit1 " - ".toList role_company).2)
  else if hasSub " at ".toList (role_company.map Char.toLower) then
    match findSplit " at ".toList role_company with
    | some rc => some (pyStrip rc.1, pyStrip rc.2)
    | none => none
  else if hasSub ['|'] role_company then
    some (pyStrip (pySplit1 ['|'] role_company).1,
      pyStrip (pySplit1 ['|'] role_company).2)
  else
    some (pyStrip role_company, pyStrip company)

/-- The composite role/company recovery applied to an Experience header line:
`format_cv` (lines 341-353) splits at `'|'` and strips, then
`add_experience` re-splits the role part. -/
def pipeline_role_company (roleLine : Str) : Option (Str × Str) :=
  if hasSub ['|'] roleLine then
    add_experience_role_company (pyStrip (pySplit1 ['|'] roleLine).1)
      (pyStrip (pySplit1 ['|'] roleLine).2)
  else
    add_experience_role_company (pyStrip roleLine) (pyStrip [])

/-! ### The greedy word wrapper (`PDF.add_wrapped_text`, app.py lines 449-478)
and the bullet renderer (`PDF.add_bullet_point`, app.py lines 480-525) -/

/-- The greedy fill loop shared verbatim by `add_wrapped_text`
(lines 460-478) and `add_bullet_point` (lines 502-523): `line` is the
current candidate word list; a word whose tentative line exceeds the width
flushes the candidate (or is emitted alone when the candidate is empty). -/
def wrapAux (measure : Str → Int) (width : Int) : List Str → List Str → List Str
  | [], line => if line = [] then [] else [joinSep ' ' line]
  | w :: ws, line =>
    if width < measure (joinSep ' ' (line ++ [w])) then
      if line = [] then w :: wrapAux measure width ws []
      else joinSep ' ' line :: wrapAux measure width ws [w]
    else wrapAux measure width ws (line ++ [w])

/-- app.py `PDF.add_wrapped_text` (lines 449-478) viewed as the sequence of
emitted text lines: the text is sanitized, split into words, and greedily
wrapped against the available width. -/
def add_wrapped_text (measure : Str → Int) (width : Int) (text : Str) :
    List Str :=
  wrapAux measure width (pySplitWs (sanitize_text text)) []

/-- app.py `PDF.add_bullet_point` (lines 480-525) viewed as the sequence of
emitted text lines with their x-offsets: every emitted text cell is
preceded by `set_x(start_x + indent + 5)`, and the wrap loop is the one of
`add_wrapped_text` run against `w - r_margin - (start_x + indent + 5)`. -/
def add_bullet_point (measure : Str → Int) (w rMargin startX indent : Int)
    (text : Str) : List (Int × Str) :=
  let availableWidth := w - rMargin - (startX + indent + 5)
  (wrapAux measure availableWidth (pySplitWs (sanitize_text text)) []).map
    (fun l => (startX + indent + 5, l))

/-! ### Lemmas about stripping -/

theorem dropWhile_idem {α : Type} (p : α → Bool) (l : List α) :
    (l.dropWhile p).dropWhile p = l.dropWhile p := by
  induction l with
  | nil => rfl
  | cons c rest ih =>
    cases hp : p c with
    | true => rw [List.dropWhile_cons_of_pos hp]; exact ih
    | false =>
      rw [List.dropWhile_cons_of_neg (by simp [hp]),
        List.dropWhile_cons_of_neg (by simp [hp])]

theorem dw_head_false {p : Char → Bool} :
    ∀ {l : Str} {c : Char} {t : Str}, l.dropWhile p = c :: t → p c = false := by
  intro l
  induction l with
  | nil => intro c t h; cases h
  | cons a rest ih =>
    intro c t h
    cases hp : p a with
    | true => rw [List.dropWhile_cons_of_pos hp] at h; exact ih h
    | false =>
      rw [List.dropWhile_cons_of_neg (by simp [hp])] at h
      injection h with h1 _
      rw [← h1]; exact hp

theorem dropWhile_eq_self_of_head {p : Char → Bool} {l : Str}
    (h : ∀ c t, l = c :: t → p c = false) : l.dropWhile p = l := by
  cases l with
  | nil => rfl
  | cons c t => exact List.dropWhile_cons_of_neg (by simp [h c t rfl])

theorem mem_pyStrip {c : Char} {s : Str} (h : c ∈ pyStrip s) : c ∈ s := by
  unfold pyStrip at h
  rw [List.mem_reverse] at h
  have h2 : c ∈ (s.dropWhile pyIsSpace).reverse :=
    List.Sublist.mem h (List.dropWhile_sublist pyIsSpace)
  rw [List.mem_reverse] at h2
  exact List.Sublist.mem h2 (List.dropWhile_sublist pyIsSpace)

theorem pyStrip_eq_self {l : Str}
    (hh : ∀ c t, l = c :: t → pyIsSpace c = false)
    (hl : ∀ c t, l.reverse = c :: t → pyIsSpace c = false) : pyStrip l = l := by
  unfold pyStrip
  rw [dropWhile_eq_self_of_head hh, dropWhile_eq_self_of_head hl,
    List.reverse_reverse]

theorem pyStrip_heads (s : Str) :
    (∀ c t, pyStrip s = c :: t → pyIsSpace c = false) ∧
    (∀ c t, (pyStrip s).reverse = c :: t → pyIsSpace c = false) := by
  cases hB : (s.dropWhile pyIsSpace).reverse.dropWhile pyIsSpace with
  | nil =>
    have hP : pyStrip s = [] := by unfold pyStrip; rw [hB]; rfl
    constructor
    · intro c t hct; rw [hP] at hct; cases hct
    · intro c t hct; rw [hP] at hct; cases hct
  | cons b B' =>
    have hP : pyStrip s = (b :: B').reverse := by unfold pyStrip; rw [hB]
    have hpb : pyIsSpace b = false := dw_head_false hB
    have hAne : s.dropWhile pyIsSpace ≠ [] := by
      intro hA
      rw [hA] at hB
      cases hB
    obtain ⟨a, A', hAc⟩ := List.exists_cons_of_ne_nil hAne
    have hpa : pyIsSpace a = false := dw_head_false hAc
    have hlast : (b :: B').getLast? = some a := by
      have h1 : (s.dropWhile pyIsSpace).reverse.takeWhile pyIsSpace ++ (b :: B') =
          (s.dropWhile pyIsSpace).reverse := by
        rw [← hB]; exact List.takeWhile_append_dropWhile pyIsSpace _
      have h2 := congrArg List.getLast? h1
      rw [List.getLast?_append, List.getLast?_reverse, hAc] at h2
      have h3 : (b :: B').getLast? = some ((b :: B').getLast (by simp)) :=
        List.getLast?_eq_getLast _ _
      rw [h3] at h2 ⊢
      rw [Option.or_some] at h2
      rw [h2]; rfl
    constructor
    · intro c t hct
      rw [hP] at hct
      have hc : ((b :: B').reverse).head? = some c := by rw [hct]; rfl
      rw [List.head?_reverse, hlast] at hc
      injection hc with hc
      rw [← hc]; exact hpa
    · intro c t hct
      rw [hP, List.reverse_reverse] at hct
      injection hct with h1 _
      rw [← h1]; exact hpb

theorem pyStrip_idem (s : Str) : pyStrip (pyStrip s) = pyStrip s :=
  pyStrip_eq_self (pyStrip_heads s).1 (pyStrip_heads s).2

/-! ### Lemmas about line splitting -/

theorem splitLinesAux_no_nl :
    ∀ (s acc : Str), (∀ c ∈ acc, c ≠ '\n') →
      ∀ l ∈ splitLinesAux s acc, ∀ c ∈ l, c ≠ '\n' := by
  intro s
  induction s with
  | nil =>
    intro acc hacc l hl c hc
    simp only [splitLinesAux, List.mem_singleton] at hl
    subst hl
    rw [List.mem_reverse] at hc
    exact hacc c hc
  | cons a rest ih =>
    intro acc hacc l hl c hc
    by_cases ha : a = '\n'
    · subst ha
      simp only [splitLinesAux, if_true, List.mem_cons] at hl
      rcases hl with hl | hl
      · subst hl; rw [List.mem_reverse] at hc; exact hacc c hc
      · exact ih [] (by simp) l hl c hc
    · simp only [splitLinesAux, if_neg ha] at hl
      refine ih (a :: acc) ?_ l hl c hc
      intro x hx
      rcases List.mem_cons.mp hx with hx | hx
      · subst hx; exact ha
      · exact hacc x hx

theorem splitLines_no_nl {s l : Str} (hl : l ∈ splitLines s) :
    ∀ c ∈ l, c ≠ '\n' :=
  splitLinesAux_no_nl s [] (by simp) l hl

theorem splitLinesAux_append :
    ∀ (w t acc : Str), (∀ c ∈ w, c ≠ '\n') →
      splitLinesAux (w ++ t) acc = splitLinesAux t (w.reverse ++ acc) := by
  intro w t
  induction w with
  | nil => intro acc _; simp [splitLines]
  | cons c w' ih =>
    intro acc hw
    have hc : c ≠ '\n' := hw c (by simp)
    simp only [List.cons_append, splitLinesAux, if_neg hc, List.append_eq]
    rw [ih (c :: acc) (fun x hx => hw x (List.mem_cons_of_mem _ hx))]
    simp

theorem splitLines_joinSep_nl :
    ∀ ws : List Str, ws ≠ [] → (∀ w ∈ ws, ∀ c ∈ w, c ≠ '\n') →
      splitLines (joinSep '\n' ws) = ws := by
  intro ws
  induction ws with
  | nil => intro h; exact absurd rfl h
  | cons w ws' ih =>
    intro _ hws
    cases ws' with
    | nil =>
      show splitLinesAux (joinSep '\n' [w]) [] = [w]
      have : joinSep '\n' [w] = w ++ [] := by simp [joinSep]
      rw [this, splitLinesAux_append w [] [] (hws w (by simp))]
      simp [splitLinesAux]
    | cons u rest =>
      show splitLinesAux (joinSep '\n' (w :: u :: rest)) [] = w :: u :: rest
      have hj : joinSep '\n' (w :: u :: rest) =
          w ++ '\n' :: joinSep '\n' (u :: rest) := rfl
      rw [hj, splitLinesAux_append w _ [] (hws w (by simp))]
      simp only [splitLinesAux, if_true, List.append_nil, List.reverse_reverse]
      have h2 := ih (by simp) (fun x hx => hws x (List.mem_cons_of_mem _ hx))
      unfold splitLines at h2
      rw [h2]

/-! ### Lemmas about whitespace splitting and joining -/

theorem splitWsAux_nil_ne {acc : Str} (h : acc ≠ []) :
    splitWsAux [] acc = [acc.reverse] := by
  simp [splitWsAux, h]

theorem splitWsAux_cons_space {a : Char} {rest acc : Str}
    (h : pyIsSpace a = true) :
    splitWsAux (a :: rest) acc =
      if acc = [] then splitWsAux rest []
      else acc.reverse :: splitWsAux rest [] := by
  simp [splitWsAux, h]

theorem splitWsAux_cons_nospace {a : Char} {rest acc : Str}
    (h : pyIsSpace a = false) :
    splitWsAux (a :: rest) acc = splitWsAux rest (a :: acc) := by
  simp [splitWsAux, h]

theorem splitWsAux_words :
    ∀ (s acc : Str), (∀ c ∈ acc, pyIsSpace c = false) →
      ∀ w ∈ splitWsAux s acc, w ≠ [] ∧ ∀ c ∈ w, pyIsSpace c = false := by
  intro s
  induction s with
  | nil =>
    intro acc hacc w hw
    by_cases h : acc = []
    · rw [h] at hw; simp [splitWsAux] at hw
    · rw [splitWsAux_nil_ne h, List.mem_singleton] at hw
      subst hw
      refine ⟨by simpa using h, ?_⟩
      intro c hc
      rw [List.mem_reverse] at hc
      exact hacc c hc
  | cons a rest ih =>
    intro acc hacc w hw
    cases hsp : pyIsSpace a with
    | true =>
      rw [splitWsAux_cons_space hsp] at hw
      by_cases h : acc = []
      · rw [if_pos h] at hw
        exact ih [] (by simp) w hw
      · rw [if_neg h, List.mem_cons] at hw
        rcases hw with hw | hw
        · subst hw
          refine ⟨by simpa using h, ?_⟩
          intro c hc
          rw [List.mem_reverse] at hc
          exact hacc c hc
        · exact ih [] (by simp) w hw
    | false =>
      rw [splitWsAux_cons_nospace hsp] at hw
      refine ih (a :: acc) ?_ w hw
      intro c hc
      rcases List.mem_cons.mp hc with hc | hc
      · rw [hc]; exact hsp
      · exact hacc c hc

theorem splitWsAux_chars :
    ∀ (s acc : Str), ∀ w ∈ splitWsAux s acc, ∀ c ∈ w, c ∈ s ∨ c ∈ acc := by
  intro s
  induction s with
  | nil =>
    intro acc w hw c hc
    by_cases h : acc = []
    · rw [h] at hw; simp [splitWsAux] at hw
    · rw [splitWsAux_nil_ne h, List.mem_singleton] at hw
      subst hw
      rw [List.mem_reverse] at hc
      exact Or.inr hc
  | cons a rest ih =>
    intro acc w hw c hc
    cases hsp : pyIsSpace a with
    | true =>
      rw [splitWsAux_cons_space hsp] at hw
      by_cases h : acc = []
      · rw [if_pos h] at hw
        rcases ih [] w hw c hc with h1 | h1
        · exact Or.inl (List.mem_cons_of_mem _ h1)
        · cases h1
      · rw [if_neg h, List.mem_cons] at hw
        rcases hw with hw | hw
        · subst hw; rw [List.mem_reverse] at hc; exact Or.inr hc
        · rcases ih [] w hw c hc with h1 | h1
          · exact Or.inl (List.mem_cons_of_mem _ h1)
          · cases h1
    | false =>
      rw [splitWsAux_cons_nospace hsp] at hw
      rcases ih (a :: acc) w hw c hc with h1 | h1
      · exact Or.inl (List.mem_cons_of_mem _ h1)
      · rcases List.mem_cons.mp h1 with h1 | h1
        · rw [h1]; exact Or.inl (List.mem_cons_self _ _)
        · exact Or.inr h1

theorem splitWsAux_append :
    ∀ (w t acc : Str), (∀ c ∈ w, pyIsSpace c = false) →
      splitWsAux (w ++ t) acc = splitWsAux t (w.reverse ++ acc) := by
  intro w t
  induction w with
  | nil => intro acc _; simp
  | cons c w' ih =>
    intro acc hw
    have hc : pyIsSpace c = false := hw c (by simp)
    rw [List.cons_append, splitWsAux_cons_nospace hc,
      ih (c :: acc) (fun x hx => hw x (List.mem_cons_of_mem _ hx))]
    simp

theorem splitWs_joinSep_sp :
    ∀ ws : List Str, (∀ w ∈ ws, w ≠ [] ∧ ∀ c ∈ w, pyIsSpace c = false) →
      pySplitWs (joinSep ' ' ws) = ws := by
  intro ws
  induction ws with
  | nil => intro _; rfl
  | cons w ws' ih =>
    intro hws
    cases ws' with
    | nil =>
      show splitWsAux (joinSep ' ' [w]) [] = [w]
      have h0 : joinSep ' ' [w] = w ++ [] := by simp [joinSep]
      rw [h0, splitWsAux_append w [] [] (hws w (by simp)).2,
        splitWsAux_nil_ne (by simpa using (hws w (by simp)).1)]
      simp
    | cons u rest =>
      show splitWsAux (joinSep ' ' (w :: u :: rest)) [] = w :: u :: rest
      have hj : joinSep ' ' (w :: u :: rest) =
          w ++ ' ' :: joinSep ' ' (u :: rest) := rfl
      rw [hj, splitWsAux_append w _ [] (hws w (by simp)).2,
        splitWsAux_cons_space (by decide)]
      rw [List.append_nil, if_neg (by simpa using (hws w (by simp)).1)]
      have h2 := ih (fun x hx => hws x (List.mem_cons_of_mem _ hx))
      unfold pySplitWs at h2
      rw [List.reverse_reverse, h2]

theorem mem_joinSep :
    ∀ (sep : Char) (ws : List Str) (c : Char), c ∈ joinSep sep ws →
      c = sep ∨ ∃ w, w ∈ ws ∧ c ∈ w := by
  intro sep ws
  induction ws with
  | nil => intro c hc; cases hc
  | cons w ws' ih =>
    intro c hc
    cases ws' with
    | nil => exact Or.inr ⟨w, by simp, hc⟩
    | cons u rest =>
      have hj : joinSep sep (w :: u :: rest) =
          w ++ sep :: joinSep sep (u :: rest) := rfl
      rw [hj] at hc
      rcases List.mem_append.mp hc with h1 | h1
      · exact Or.inr ⟨w, by simp, h1⟩
      · rcases List.mem_cons.mp h1 with h1 | h1
        · exact Or.inl h1
        · rcases ih c h1 with h2 | ⟨v, hv, hcv⟩
          · exact Or.inl h2
          · exact Or.inr ⟨v, List.mem_cons_of_mem _ hv, hcv⟩

/-! ### Lemmas about character replacement and sanitizer idempotence -/

theorem mem_replaceChar :
    ∀ {c old : Char} {new y : Str}, c ∈ replaceChar old new y →
      c ∈ new ∨ (c ∈ y ∧ c ≠ old) := by
  intro c old new y
  induction y with
  | nil => intro h; cases h
  | cons a rest ih =>
    intro h
    simp only [replaceChar] at h
    rcases List.mem_append.mp h with h1 | h2
    · by_cases ha : a = old
      · rw [if_pos ha] at h1; exact Or.inl h1
      · rw [if_neg ha] at h1
        have hc := List.mem_singleton.mp h1
        refine Or.inr ⟨by rw [hc]; exact List.mem_cons_self _ _, ?_⟩
        rw [hc]; exact ha
    · rcases ih h2 with h3 | ⟨h3, h4⟩
      · exact Or.inl h3
      · exact Or.inr ⟨List.mem_cons_of_mem _ h3, h4⟩

theorem not_mem_replaceChar_self {old : Char} {new y : Str} (h2 : old ∉ new) :
    old ∉ replaceChar old new y := by
  intro h
  rcases mem_replaceChar h with h1 | ⟨_, h3⟩
  · exact h2 h1
  · exact h3 rfl

theorem not_mem_replaceChar {a old : Char} {new y : Str}
    (h1 : a ∉ y) (h2 : a ∉ new) : a ∉ replaceChar old new y := by
  intro h
  rcases mem_replaceChar h with h3 | ⟨h3, _⟩
  · exact h2 h3
  · exact h1 h3

theorem replaceChar_eq_self :
    ∀ {old : Char} {new y : Str}, old ∉ y → replaceChar old new y = y := by
  intro old new y
  induction y with
  | nil => intro _; rfl
  | cons a rest ih =>
    intro h
    have ha : ¬a = old := by
      intro he
      refine h ?_
      rw [← he]
      exact List.mem_cons_self a rest
    simp only [replaceChar, if_neg ha, List.singleton_append]
    rw [ih (fun hm => h (List.mem_cons_of_mem _ hm))]

/-- The characters consumed by the replacement table of `sanitize_text`. -/
def needleChars : List Char :=
  ['•', '·', '○', '◦', '→', '—', '–', ' ', '​', '‌', '‍', ' ', '﻿', ' ', ' ']

/-- The characters the replacement table can emit. -/
def safeChars : List Char :=
  ['*', '-', '>', ' ', '\n']

theorem safe_not_needle : ∀ x ∈ safeChars, x ∉ needleChars := by decide

theorem replaceAll_chars :
    ∀ {c : Char} {s : Str}, c ∈ replaceAll s →
      c ∈ safeChars ∨ (c ∈ s ∧ c ∉ needleChars) := by
  intro c s h
  unfold replaceAll at h
  rcases mem_replaceChar h with h1 | ⟨h, hd1⟩
  · exact Or.inl (by rw [List.mem_singleton.mp h1]; decide)
  rcases mem_replaceChar h with h1 | ⟨h, hd2⟩
  · exact Or.inl (by rw [List.mem_singleton.mp h1]; decide)
  rcases mem_replaceChar h with h1 | ⟨h, hd3⟩
  · exact absurd h1 (List.not_mem_nil _)
  rcases mem_replaceChar h with h1 | ⟨h, hd4⟩
  · exact Or.inl (by rw [List.mem_singleton.mp h1]; decide)
  rcases mem_replaceChar h with h1 | ⟨h, hd5⟩
  · exact absurd h1 (List.not_mem_nil _)
  rcases mem_replaceChar h with h1 | ⟨h, hd6⟩
  · exact absurd h1 (List.not_mem_nil _)
  rcases mem_replaceChar h with h1 | ⟨h, hd7⟩
  · exact absurd h1 (List.not_mem_nil _)
  rcases mem_replaceChar h with h1 | ⟨h, hd8⟩
  · exact Or.inl (by rw [List.mem_singleton.mp h1]; decide)
  rcases mem_replaceChar h with h1 | ⟨h, hd9⟩
  · exact Or.inl (by rw [List.mem_singleton.mp h1]; decide)
  rcases mem_replaceChar h with h1 | ⟨h, hd10⟩
  · exact Or.inl (by rw [List.mem_singleton.mp h1]; decide)
  rcases mem_replaceChar h with h1 | ⟨h, hd11⟩
  · refine Or.inl ?_
    rcases List.mem_cons.mp h1 with h2 | h2
    · rw [h2]; decide
    · rw [List.mem_singleton.mp h2]; decide
  rcases mem_replaceChar h with h1 | ⟨h, hd12⟩
  · exact Or.inl (by rw [List.mem_singleton.mp h1]; decide)
  rcases mem_replaceChar h with h1 | ⟨h, hd13⟩
  · exact Or.inl (by rw [List.mem_singleton.mp h1]; decide)
  rcases mem_replaceChar h with h1 | ⟨h, hd14⟩
  · exact Or.inl (by rw [List.mem_singleton.mp h1]; decide)
  rcases mem_replaceChar h with h1 | ⟨h, hd15⟩
  · exact Or.inl (by rw [List.mem_singleton.mp h1]; decide)
  refine Or.inr ⟨h, ?_⟩
  intro hmem
  simp only [needleChars, List.mem_cons, List.not_mem_nil, or_false] at hmem
  rcases hmem with hm | hm | hm | hm | hm | hm | hm | hm | hm | hm | hm | hm | hm | hm | hm
  · exact hd15 hm
  · exact hd14 hm
  · exact hd13 hm
  · exact hd12 hm
  · exact hd11 hm
  · exact hd10 hm
  · exact hd9 hm
  · exact hd8 hm
  · exact hd7 hm
  · exact hd6 hm
  · exact hd5 hm
  · exact hd4 hm
  · exact hd3 hm
  · exact hd2 hm
  · exact hd1 hm

theorem replaceAll_eq_self {s : Str}
    (h : ∀ n ∈ needleChars, n ∉ s) : replaceAll s = s := by
  unfold replaceAll
  rw [replaceChar_eq_self (h '•' (by decide))]
  rw [replaceChar_eq_self (h '·' (by decide))]
  rw [replaceChar_eq_self (h '○' (by decide))]
  rw [replaceChar_eq_self (h '◦' (by decide))]
  rw [replaceChar_eq_self (h '→' (by decide))]
  rw [replaceChar_eq_self (h '—' (by decide))]
  rw [replaceChar_eq_self (h '–' (by decide))]
  rw [replaceChar_eq_self (h ' ' (by decide))]
  rw [replaceChar_eq_self (h '​' (by decide))]
  rw [replaceChar_eq_self (h '‌' (by decide))]
  rw [replaceChar_eq_self (h '‍' (by decide))]
  rw [replaceChar_eq_self (h ' ' (by decide))]
  rw [replaceChar_eq_self (h '﻿' (by decide))]
  rw [replaceChar_eq_self (h ' ' (by decide))]
  rw [replaceChar_eq_self (h ' ' (by decide))]

theorem mem_sanitize_text {c : Char} {s : Str} (h : c ∈ sanitize_text s) :
    c = ' ' ∨ c ∈ replaceAll s := by
  unfold sanitize_text at h
  rcases mem_joinSep ' ' _ c h with h1 | ⟨w, hw, hc⟩
  · exact Or.inl h1
  · rcases splitWsAux_chars (replaceAll s) [] w hw c hc with h2 | h2
    · exact Or.inr h2
    · cases h2

theorem sanitize_text_idem (s : Str) :
    sanitize_text (sanitize_text s) = sanitize_text s := by
  have hno : ∀ n ∈ needleChars, n ∉ sanitize_text s := by
    intro n hn hmem
    rcases mem_sanitize_text hmem with h1 | h1
    · rw [h1] at hn; exact absurd hn (by decide)
    · rcases replaceAll_chars h1 with h2 | ⟨_, h2⟩
      · exact safe_not_needle n h2 hn
      · exact h2 hn
  show joinSep ' ' (pySplitWs (replaceAll (sanitize_text s))) = sanitize_text s
  rw [replaceAll_eq_self hno]
  show joinSep ' ' (pySplitWs (joinSep ' ' (pySplitWs (replaceAll s)))) =
    sanitize_text s
  rw [splitWs_joinSep_sp (pySplitWs (replaceAll s))
    (fun w hw => splitWsAux_words (replaceAll s) [] (by simp) w hw)]
  rfl

/-! ### Lemmas about substring search -/

theorem hasSub_cons (sep : Str) (c : Char) (rest : Str) :
    hasSub sep (c :: rest) = (leadsWith sep (c :: rest) || hasSub sep rest) := by
  unfold hasSub
  cases h : leadsWith sep (c :: rest) with
  | true => simp [findSplit, h]
  | false =>
    simp only [findSplit, h, Bool.false_eq_true, if_false, Bool.false_or]
    cases findSplit sep rest <;> simp

theorem hasSub_append_head {a : Char} {sep' : Str} :
    ∀ {w x : Str}, a ∉ w →
      hasSub (a :: sep') (w ++ x) = hasSub (a :: sep') x := by
  intro w
  induction w with
  | nil => intro x _; rfl
  | cons c w' ih =>
    intro x hw
    have hac : ¬a = c := fun h => hw (by rw [h]; exact List.mem_cons_self _ _)
    rw [List.cons_append, hasSub_cons]
    have hlw : leadsWith (a :: sep') (c :: (w' ++ x)) = false := by
      unfold leadsWith
      rw [beq_eq_false_iff_ne.mpr hac]
      rfl
    rw [hlw, Bool.false_or]
    exact ih (fun h => hw (List.mem_cons_of_mem _ h))

theorem joinSep_cons_head (sep : Char) (u : Str) (rest : List Str) :
    ∃ t, joinSep sep (u :: rest) = u ++ t := by
  cases rest with
  | nil => exact ⟨[], by simp [joinSep]⟩
  | cons r rs => exact ⟨sep :: joinSep sep (r :: rs), rfl⟩

theorem joinNl_no_nlnl :
    ∀ ws : List Str, (∀ w ∈ ws, w ≠ [] ∧ ∀ c ∈ w, c ≠ '\n') →
      hasSub nlnl (joinSep '\n' ws) = false := by
  intro ws
  induction ws with
  | nil => intro _; decide
  | cons w ws' ih =>
    intro hws
    have hwnl : ('\n' : Char) ∉ w := fun h => (hws w (by simp)).2 '\n' h rfl
    cases ws' with
    | nil =>
      show hasSub nlnl (joinSep '\n' [w]) = false
      have h0 : joinSep '\n' [w] = w ++ [] := by simp [joinSep]
      rw [h0]
      show hasSub ('\n' :: ['\n']) (w ++ []) = false
      rw [hasSub_append_head hwnl]
      decide
    | cons u rest =>
      have hj : joinSep '\n' (w :: u :: rest) =
          w ++ '\n' :: joinSep '\n' (u :: rest) := rfl
      rw [hj]
      show hasSub ('\n' :: ['\n']) _ = false
      rw [hasSub_append_head hwnl, hasSub_cons]
      have hlead : leadsWith ('\n' :: ['\n']) ('\n' :: joinSep '\n' (u :: rest)) =
          leadsWith ['\n'] (joinSep '\n' (u :: rest)) := by
        show (('\n' : Char) == '\n' && leadsWith ['\n'] (joinSep '\n' (u :: rest))) = _
        rw [beq_self_eq_true, Bool.true_and]
      rw [hlead]
      have hune : u ≠ [] := (hws u (by simp)).1
      obtain ⟨e, u', hu⟩ := List.exists_cons_of_ne_nil hune
      obtain ⟨t, ht⟩ := joinSep_cons_head '\n' u rest
      have hlead2 : leadsWith ['\n'] (joinSep '\n' (u :: rest)) = false := by
        rw [ht, hu, List.cons_append]
        have he : e ≠ '\n' := fun h2 => (hws u (by simp)).2 e (by rw [hu]; simp) h2
        show (('\n' : Char) == e && leadsWith [] (u' ++ t)) = false
        rw [beq_eq_false_iff_ne.mpr (fun h2 => he h2.symm)]
        rfl
      rw [hlead2, Bool.false_or]
      exact ih (fun x hx => hws x (List.mem_cons_of_mem _ hx))

theorem splitOnSeq_single {sep s : Str} (h : hasSub sep s = false) :
    splitOnSeq sep s = [s] := by
  have hfs : findSplit sep s = none := by
    unfold hasSub at h
    cases hx : findSplit sep s with
    | none => rfl
    | some pq => rw [hx] at h; cases h
  unfold splitOnSeq
  simp [splitOnSeqF, hfs]

/-! ### The parser invariant -/

/-- Shape of every content string stored by the parser: the newline-join of
non-empty, stripped, newline-free lines. -/
def GoodContent (v : Str) : Prop :=
  ∃ ws : List Str, v = joinSep '\n' ws ∧
    ∀ w ∈ ws, w ≠ [] ∧ pyStrip w = w ∧ ∀ c ∈ w, c ≠ '\n'

/-- Shape of the lines accumulated in the parser state. -/
def GoodLines (ls : List Str) : Prop :=
  ∀ w ∈ ls, w ≠ [] ∧ pyStrip w = w ∧ ∀ c ∈ w, c ≠ '\n'

/-- Invariant carried through the `parse_cv_sections` loop. -/
def StateInv (st : ParseState) : Prop :=
  (∀ p ∈ st.sections, GoodContent p.2) ∧ GoodLines st.content ∧
    (st.sections.map Prod.fst).Nodup

theorem mem_dictSet :
    ∀ {m : SectionMap} {k v : Str} {p : Str × Str},
      p ∈ dictSet m k v → p ∈ m ∨ p = (k, v) := by
  intro m
  induction m with
  | nil =>
    intro k v p hp
    exact Or.inr (List.mem_singleton.mp hp)
  | cons q rest ih =>
    intro k v p hp
    obtain ⟨k1, v1⟩ := q
    by_cases hk : k1 = k
    · rw [show dictSet ((k1, v1) :: rest) k v = (k, v) :: rest by
        simp only [dictSet, if_pos hk]] at hp
      rcases List.mem_cons.mp hp with hp | hp
      · exact Or.inr hp
      · exact Or.inl (List.mem_cons_of_mem _ hp)
    · rw [show dictSet ((k1, v1) :: rest) k v = (k1, v1) :: dictSet rest k v by
        simp only [dictSet, if_neg hk]] at hp
      rcases List.mem_cons.mp hp with hp | hp
      · exact Or.inl (by rw [hp]; exact List.mem_cons_self _ _)
      · rcases ih hp with h1 | h1
        · exact Or.inl (List.mem_cons_of_mem _ h1)
        · exact Or.inr h1

theorem mem_keys_dictSet :
    ∀ {m : SectionMap} {k v : Str} {a : Str},
      a ∈ (dictSet m k v).map Prod.fst → a ∈ m.map Prod.fst ∨ a = k := by
  intro m k v a ha
  rw [List.mem_map] at ha
  obtain ⟨p, hp, hpa⟩ := ha
  rcases mem_dictSet hp with h1 | h1
  · exact Or.inl (List.mem_map.mpr ⟨p, h1, hpa⟩)
  · rw [h1] at hpa; exact Or.inr hpa.symm

theorem nodup_keys_dictSet :
    ∀ {m : SectionMap} {k v : Str},
      (m.map Prod.fst).Nodup → ((dictSet m k v).map Prod.fst).Nodup := by
  intro m
  induction m with
  | nil => intro k v _; simp [dictSet]
  | cons q rest ih =>
    intro k v hn
    obtain ⟨k1, v1⟩ := q
    rw [List.map_cons, List.nodup_cons] at hn
    by_cases hk : k1 = k
    · rw [show dictSet ((k1, v1) :: rest) k v = (k, v) :: rest by
        simp only [dictSet, if_pos hk]]
      rw [List.map_cons, List.nodup_cons]
      exact ⟨by rw [← hk]; exact hn.1, hn.2⟩
    · rw [show dictSet ((k1, v1) :: rest) k v = (k1, v1) :: dictSet rest k v by
        simp only [dictSet, if_neg hk]]
      rw [List.map_cons, List.nodup_cons]
      refine ⟨?_, ih hn.2⟩
      intro hmem
      rcases mem_keys_dictSet hmem with h1 | h1
      · exact hn.1 h1
      · exact hk h1

theorem dictGet_mem :
    ∀ {m : SectionMap} {k v : Str}, dictGet m k = some v → (k, v) ∈ m := by
  intro m
  induction m with
  | nil => intro k v h; cases h
  | cons q rest ih =>
    intro k v h
    unfold dictGet at h
    by_cases hk : q.1 = k
    · rw [if_pos hk] at h
      injection h with h
      have : q = (k, v) := by
        cases q; simp only at hk h; rw [hk, h]
      rw [← this]; exact List.mem_cons_self _ _
    · rw [if_neg hk] at h
      exact List.mem_cons_of_mem _ (ih h)

theorem parseLine_inv {st : ParseState} {rawLine : Str} (hst : StateInv st)
    (hNl : ∀ c ∈ rawLine, c ≠ '\n') : StateInv (parseLine st rawLine) := by
  unfold parseLine
  by_cases hline : pyStrip rawLine = []
  · simpa [hline] using hst
  · have hgood : pyStrip rawLine ≠ [] ∧ pyStrip (pyStrip rawLine) = pyStrip rawLine ∧
        ∀ c ∈ pyStrip rawLine, c ≠ '\n' :=
      ⟨hline, pyStrip_idem rawLine, fun c hc => hNl c (mem_pyStrip hc)⟩
    cases hfind : section_markers.find?
        (fun m => hasSub m ((pyStrip rawLine).map Char.toUpper) ||
          hasSub ((pyStrip rawLine).map Char.toUpper) m) with
    | some marker =>
      simp only [hline, if_neg hline, hfind]
      cases hcur : st.current with
      | some cs =>
        refine ⟨?_, fun w hw => absurd hw (List.not_mem_nil w), ?_⟩
        · intro p hp
          rcases mem_dictSet hp with h1 | h1
          · exact hst.1 p h1
          · rw [h1]
            exact ⟨st.content, rfl, hst.2.1⟩
        · exact nodup_keys_dictSet hst.2.2
      | none =>
        exact ⟨hst.1, fun w hw => absurd hw (List.not_mem_nil w), hst.2.2⟩
    | none =>
      simp only [hline, if_neg hline, hfind]
      cases hcur : st.current with
      | some cs =>
        refine ⟨hst.1, ?_, hst.2.2⟩
        intro w hw
        rcases List.mem_append.mp hw with h1 | h1
        · exact hst.2.1 w h1
        · rw [List.mem_singleton.mp h1]
          exact hgood
      | none =>
        refine ⟨hst.1, ?_, hst.2.2⟩
        intro w hw
        rw [List.mem_singleton.mp hw]
        exact hgood

theorem parse_fold_inv :
    ∀ (ls : List Str) (st : ParseState),
      (∀ l ∈ ls, ∀ c ∈ l, c ≠ '\n') → StateInv st →
      StateInv (ls.foldl parseLine st) := by
  intro ls
  induction ls with
  | nil => intro st _ hst; exact hst
  | cons l rest ih =>
    intro st hls hst
    rw [List.foldl_cons]
    exact ih (parseLine st l) (fun x hx => hls x (List.mem_cons_of_mem _ hx))
      (parseLine_inv hst (hls l (List.mem_cons_self _ _)))

theorem parse_init_inv : StateInv ⟨[], none, []⟩ :=
  ⟨fun p hp => absurd hp (List.not_mem_nil p),
   fun w hw => absurd hw (List.not_mem_nil w),
   List.nodup_nil⟩

theorem parseFinish_good {st : ParseState} (hinv : StateInv st) :
    ∀ p ∈ parseFinish st, GoodContent p.2 := by
  obtain ⟨sec, cur, cont⟩ := st
  cases cur with
  | none => exact fun p hp => hinv.1 p hp
  | some cs =>
    intro p hp
    show GoodContent p.2
    by_cases hc0 : cont = []
    · rw [show parseFinish ⟨sec, some cs, cont⟩ = sec by
        simp only [parseFinish, if_pos hc0]] at hp
      exact hinv.1 p hp
    · rw [show parseFinish ⟨sec, some cs, cont⟩ =
          dictSet sec cs (joinSep '\n' cont) by
        simp only [parseFinish, if_neg hc0]] at hp
      rcases mem_dictSet hp with h1 | h1
      · exact hinv.1 p h1
      · rw [h1]
        exact ⟨_, rfl, hinv.2.1⟩

theorem parseFinish_nodup {st : ParseState} (hinv : StateInv st) :
    ((parseFinish st).map Prod.fst).Nodup := by
  obtain ⟨sec, cur, cont⟩ := st
  cases cur with
  | none => exact hinv.2.2
  | some cs =>
    by_cases hc0 : cont = []
    · rw [show parseFinish ⟨sec, some cs, cont⟩ = sec by
        simp only [parseFinish, if_pos hc0]]
      exact hinv.2.2
    · rw [show parseFinish ⟨sec, some cs, cont⟩ =
          dictSet sec cs (joinSep '\n' cont) by
        simp only [parseFinish, if_neg hc0]]
      exact nodup_keys_dictSet hinv.2.2

theorem parse_sections_good (t : Str) (p : Str × Str)
    (hp : p ∈ parse_cv_sections t) : GoodContent p.2 :=
  parseFinish_good
    (parse_fold_inv _ _ (fun l hl c hc => splitLines_no_nl hl c hc)
      parse_init_inv) p hp

theorem parse_keys_nodup (t : Str) :
    ((parse_cv_sections t).map Prod.fst).Nodup :=
  parseFinish_nodup
    (parse_fold_inv _ _ (fun l hl c hc => splitLines_no_nl hl c hc)
      parse_init_inv)

/-! ### Lemmas about the Experience entry splitter -/

theorem good_no_nlnl {v : Str} (h : GoodContent v) : hasSub nlnl v = false := by
  obtain ⟨ws, rfl, hws⟩ := h
  exact joinNl_no_nlnl ws (fun w hw => ⟨(hws w hw).1, (hws w hw).2.2⟩)

theorem format_entries_le_one {v : Str} (h : GoodContent v) :
    (format_experience_entries v).length ≤ 1 := by
  unfold format_experience_entries
  rw [splitOnSeq_single (good_no_nlnl h)]
  cases hf : expEntryOfBlock v <;> simp [List.filterMap_cons, hf]

theorem map_id_of_eq {f : Str → Str} :
    ∀ {l : List Str}, (∀ a ∈ l, f a = a) → l.map f = l := by
  intro l
  induction l with
  | nil => intro _; rfl
  | cons a rest ih =>
    intro h
    rw [List.map_cons, h a (List.mem_cons_self _ _),
      ih (fun x hx => h x (List.mem_cons_of_mem _ hx))]

theorem good_single_line {v l : Str} (h : GoodContent v)
    (hv : ((splitLines v).map pyStrip).filter (fun x => decide (x ≠ [])) = [l]) :
    v = l ∧ l ≠ [] ∧ pyStrip l = l ∧ ∀ c ∈ l, c ≠ '\n' := by
  obtain ⟨ws, rfl, hws⟩ := h
  cases ws with
  | nil =>
    exfalso
    have h0 : ((splitLines (joinSep '\n' [])).map pyStrip).filter
        (fun x => decide (x ≠ [])) = [] := by
      show ((splitLines []).map pyStrip).filter (fun x => decide (x ≠ [])) = []
      simp [splitLines, splitLinesAux, pyStrip]
    rw [h0] at hv
    cases hv
  | cons w ws' =>
    have hsl : splitLines (joinSep '\n' (w :: ws')) = w :: ws' :=
      splitLines_joinSep_nl _ (by simp) (fun x hx => (hws x hx).2.2)
    rw [hsl] at hv
    rw [map_id_of_eq (fun a ha => (hws a ha).2.1)] at hv
    rw [List.filter_eq_self.mpr
      (fun a ha => by simpa using (hws a ha).1)] at hv
    injection hv with h1 h2
    subst h2
    rw [← h1]
    exact ⟨rfl, (hws w (by simp)).1, (hws w (by simp)).2.1,
      (hws w (by simp)).2.2⟩

theorem format_entries_single_line {l : Str} (hne : l ≠ [])
    (hstrip : pyStrip l = l) (hnl : ∀ c ∈ l, c ≠ '\n') :
    format_experience_entries l = [] := by
  have hsub : hasSub nlnl l = false := by
    rw [← List.append_nil l]
    show hasSub ('\n' :: ['\n']) _ = false
    rw [hasSub_append_head (fun hm => hnl '\n' hm rfl)]
    decide
  unfold format_experience_entries
  rw [splitOnSeq_single hsub]
  have hfl : expEntryOfBlock l = none := by
    unfold expEntryOfBlock
    rw [if_neg (by rw [hstrip]; exact hne)]
    have hsl : splitLines l = [l] := by
      have h2 := splitLines_joinSep_nl [l] (by simp)
        (by intro w hw; rw [List.mem_singleton.mp hw]; exact hnl)
      simpa [joinSep] using h2
    rw [hsl, List.map_cons, List.map_nil, hstrip]
    simp [List.filter_cons, hne]
  simp [List.filterMap_cons, hfl]

/-! ### Lemmas about the greedy wrapper -/

theorem wrapAux_nil (measure : Str → Int) (width : Int) (line : List Str) :
    wrapAux measure width [] line =
      if line = [] then [] else [joinSep ' ' line] := rfl

theorem wrapAux_cons (measure : Str → Int) (width : Int) (w : Str)
    (ws line : List Str) :
    wrapAux measure width (w :: ws) line =
      if width < measure (joinSep ' ' (line ++ [w])) then
        (if line = [] then w :: wrapAux measure width ws []
         else joinSep ' ' line :: wrapAux measure width ws [w])
      else wrapAux measure width ws (line ++ [w]) := rfl

/-- Word lists all of whose members are non-empty and whitespace-free. -/
def GoodWords (ws : List Str) : Prop :=
  ∀ w ∈ ws, w ≠ [] ∧ ∀ c ∈ w, pyIsSpace c = false

theorem goodWords_append {a b : List Str} (ha : GoodWords a) (hb : GoodWords b) :
    GoodWords (a ++ b) := by
  intro w hw
  rcases List.mem_append.mp hw with h | h
  · exact ha w h
  · exact hb w h

theorem goodWords_nil : GoodWords [] :=
  fun w hw => absurd hw (List.not_mem_nil w)

theorem wrapAux_flat (measure : Str → Int) (width : Int) :
    ∀ (ws line : List Str), GoodWords ws → GoodWords line →
      (wrapAux measure width ws line).flatMap pySplitWs = line ++ ws := by
  intro ws
  induction ws with
  | nil =>
    intro line _ hline
    rw [wrapAux_nil]
    by_cases h : line = []
    · rw [if_pos h, h]; rfl
    · rw [if_neg h]
      show pySplitWs (joinSep ' ' line) ++ ([] : List Str) = line ++ []
      rw [splitWs_joinSep_sp line hline]
  | cons w ws' ih =>
    intro line hws hline
    have hw : w ≠ [] ∧ ∀ c ∈ w, pyIsSpace c = false := hws w (by simp)
    have hws' : GoodWords ws' := fun x hx => hws x (List.mem_cons_of_mem _ hx)
    have hsw : GoodWords [w] := by
      intro x hx; rw [List.mem_singleton.mp hx]; exact hw
    rw [wrapAux_cons]
    by_cases hov : width < measure (joinSep ' ' (line ++ [w]))
    · rw [if_pos hov]
      by_cases hl : line = []
      · rw [if_pos hl]
        show pySplitWs w ++ (wrapAux measure width ws' []).flatMap pySplitWs = _
        rw [ih [] hws' goodWords_nil]
        have hpw : pySplitWs w = [w] := by
          have h2 := splitWs_joinSep_sp [w] hsw
          simpa [joinSep] using h2
        rw [hpw, hl]
        rfl
      · rw [if_neg hl]
        show pySplitWs (joinSep ' ' line) ++
          (wrapAux measure width ws' [w]).flatMap pySplitWs = _
        rw [ih [w] hws' hsw, splitWs_joinSep_sp line hline]
        simp
    · rw [if_neg hov]
      rw [ih (line ++ [w]) hws' (goodWords_append hline hsw)]
      simp

theorem wrapAux_lines_le (measure : Str → Int) (width : Int) :
    ∀ (ws line : List Str), GoodWords ws → GoodWords line →
      (2 ≤ line.length → measure (joinSep ' ' line) ≤ width) →
      ∀ L ∈ wrapAux measure width ws line,
        2 ≤ (pySplitWs L).length → measure L ≤ width := by
  intro ws
  induction ws with
  | nil =>
    intro line _ hline hinv L hL hlen
    rw [wrapAux_nil] at hL
    by_cases h : line = []
    · rw [if_pos h] at hL; cases hL
    · rw [if_neg h, List.mem_singleton] at hL
      subst hL
      rw [splitWs_joinSep_sp line hline] at hlen
      exact hinv hlen
  | cons w ws' ih =>
    intro line hws hline hinv L hL hlen
    have hw : w ≠ [] ∧ ∀ c ∈ w, pyIsSpace c = false := hws w (by simp)
    have hws' : GoodWords ws' := fun x hx => hws x (List.mem_cons_of_mem _ hx)
    have hsw : GoodWords [w] := by
      intro x hx; rw [List.mem_singleton.mp hx]; exact hw
    rw [wrapAux_cons] at hL
    by_cases hov : width < measure (joinSep ' ' (line ++ [w]))
    · rw [if_pos hov] at hL
      by_cases hl : line = []
      · rw [if_pos hl, List.mem_cons] at hL
        rcases hL with hL | hL
        · subst hL
          have hpw : pySplitWs L = [L] := by
            have h2 := splitWs_joinSep_sp [L] hsw
            simpa [joinSep] using h2
          rw [hpw] at hlen
          simp at hlen
        · exact ih [] hws' goodWords_nil (by intro h2; simp at h2) L hL hlen
      · rw [if_neg hl, List.mem_cons] at hL
        rcases hL with hL | hL
        · subst hL
          rw [splitWs_joinSep_sp line hline] at hlen
          exact hinv hlen
        · refine ih [w] hws' hsw ?_ L hL hlen
          intro h2
          simp at h2
    · rw [if_neg hov] at hL
      exact ih (line ++ [w]) hws' (goodWords_append hline hsw)
        (fun _ => Int.not_lt.mp hov) L hL hlen

theorem wrapAux_overflow_single (measure : Str → Int) (width : Int)
    (w : Str) (ws : List Str) (h : width < measure w) :
    wrapAux measure width (w :: ws) [] = w :: wrapAux measure width ws [] := by
  rw [wrapAux_cons]
  rw [if_pos (show width < measure (joinSep ' ' ([] ++ [w])) from h), if_pos rfl]

theorem wrapAux_all_own_line (measure : Str → Int) (width : Int)
    (hm : ∀ s : Str, s ≠ [] → 0 < measure s) (hw : width ≤ 0) :
    ∀ ws : List Str, (∀ w ∈ ws, w ≠ []) →
      wrapAux measure width ws [] = ws := by
  intro ws
  induction ws with
  | nil => intro _; rw [wrapAux_nil, if_pos rfl]
  | cons w ws' ih =>
    intro hws
    have hov : width < measure w :=
      lt_of_le_of_lt hw (hm w (hws w (by simp)))
    rw [wrapAux_overflow_single measure width w ws' hov,
      ih (fun x hx => hws x (List.mem_cons_of_mem _ hx))]

theorem goodWords_splitWs (s : Str) : GoodWords (pySplitWs s) :=
  fun w hw => splitWsAux_words s [] (by simp) w hw


/-! ### Single-character substring search -/

theorem hasSub_singleton (x : Char) :
    ∀ s : Str, hasSub [x] s = true ↔ x ∈ s := by
  intro s
  induction s with
  | nil =>
    constructor
    · intro h
      rw [show hasSub [x] [] = false from rfl] at h
      cases h
    · intro h
      cases h
  | cons c rest ih =>
    rw [hasSub_cons]
    have hl : leadsWith [x] (c :: rest) = (x == c) := by
      show (x == c && leadsWith [] rest) = (x == c)
      rw [show leadsWith [] rest = true from rfl, Bool.and_true]
    rw [hl, Bool.or_eq_true, beq_iff_eq, List.mem_cons]
    exact or_congr Iff.rfl ih

theorem findSplit_single_pre (x : Char) :
    ∀ {s p q : Str}, findSplit [x] s = some (p, q) → x ∉ p := by
  intro s
  induction s with
  | nil =>
    intro p q h
    rw [show findSplit [x] [] = none from rfl] at h
    cases h
  | cons c rest ih =>
    intro p q h
    by_cases hx : leadsWith [x] (c :: rest) = true
    · rw [show findSplit [x] (c :: rest) =
          some ([], (c :: rest).drop [x].length) by
        simp [findSplit, hx]] at h
      injection h with h
      injection h with h1 _
      rw [← h1]
      exact List.not_mem_nil x
    · rw [show findSplit [x] (c :: rest) =
          (findSplit [x] rest).map (fun pq => (c :: pq.1, pq.2)) by
        simp [findSplit, hx]] at h
      cases hfr : findSplit [x] rest with
      | none => rw [hfr] at h; cases h
      | some pq' =>
        rw [hfr] at h
        injection h with h
        obtain ⟨p', q'⟩ := pq'
        injection h with h1 _
        rw [← h1]
        intro hmem
        rcases List.mem_cons.mp hmem with h2 | h2
        · refine hx ?_
          show (x == c && leadsWith [] rest) = true
          rw [show leadsWith [] rest = true from rfl, Bool.and_true,
            beq_iff_eq]
          exact h2
        · exact ih hfr h2

theorem pre_pipe_no_pipe (line : Str) (hp : hasSub ['|'] line = true) :
    hasSub ['|'] (pyStrip (pySplit1 ['|'] line).1) = false := by
  unfold hasSub at hp
  cases hfs : findSplit ['|'] line with
  | none => rw [hfs] at hp; cases hp
  | some pq =>
    have hpre : '|' ∉ pq.1 := by
      obtain ⟨p, q⟩ := pq
      exact findSplit_single_pre '|' hfs
    have hps : (pySplit1 ['|'] line).1 = pq.1 := by
      unfold pySplit1
      rw [hfs]
    rw [hps, Bool.eq_false_iff]
    intro hhs
    exact hpre (mem_pyStrip ((hasSub_singleton '|' _).mp hhs))

theorem no_pipe_strip (line : Str) (hp : hasSub ['|'] line = false) :
    hasSub ['|'] (pyStrip line) = false := by
  rw [Bool.eq_false_iff]
  intro hhs
  have h1 := mem_pyStrip ((hasSub_singleton '|' _).mp hhs)
  have h2 := (hasSub_singleton '|' line).mpr h1
  rw [hp] at h2
  cases h2

/-! ### Claim C4 -/

/-- C4: the sanitizer is idempotent: for every string `s`,
`sanitize_text (sanitize_text s) = sanitize_text s`. -/
theorem C4_sanitize_idempotent (s : Str) :
    sanitize_text (sanitize_text s) = sanitize_text s :=
  sanitize_text_idem s

/-! ### Claim C10 -/

/-- C10: every value stored in the parsed section map is the newline-join of
stripped, non-empty, newline-free input lines; consequently it never contains
the substring `"\n\n"`, and splitting it on `"\n\n"` always yields exactly
one block. -/
theorem C10_parse_values_invariant (t k v : Str)
    (hkv : (k, v) ∈ parse_cv_sections t) :
    (∃ ws : List Str, v = joinSep '\n' ws ∧
        ∀ w ∈ ws, w ≠ [] ∧ pyStrip w = w ∧ ∀ c ∈ w, c ≠ '\n') ∧
      hasSub nlnl v = false ∧ splitOnSeq nlnl v = [v] := by
  have hg : GoodContent v := parse_sections_good t (k, v) hkv
  exact ⟨hg, good_no_nlnl hg, splitOnSeq_single (good_no_nlnl hg)⟩

/-- Witness for C10 at a concrete parsed document. -/
theorem C10_parse_values_invariant_witness :
    (∃ ws : List Str, "BSc 2020\nMIT".toList = joinSep '\n' ws ∧
        ∀ w ∈ ws, w ≠ [] ∧ pyStrip w = w ∧ ∀ c ∈ w, c ≠ '\n') ∧
      hasSub nlnl "BSc 2020\nMIT".toList = false ∧
      splitOnSeq nlnl "BSc 2020\nMIT".toList = ["BSc 2020\nMIT".toList] :=
  C10_parse_values_invariant "EDUCATION\nBSc 2020\nMIT".toList
    "EDUCATION".toList "BSc 2020\nMIT".toList (by decide)

/-! ### Claim C2 -/

/-- C2 counterexample: in the input below the marker `EDUCATION` matches a
header line twice non-adjacently; the claim says the second occurrence's
content (`C3`) is appended after the first occurrence's content (`A1`), but
the parsed map holds only the second occurrence's content — the first is
replaced. -/
theorem C2_append_on_repeat_cex :
    dictGet (parse_cv_sections
        "EDUCATION\nA1\nSKILLS\nB2\nEDUCATION\nC3".toList)
        "EDUCATION".toList = some "C3".toList ∧
      some "C3".toList ≠ some "A1\nC3".toList := by
  exact ⟨by decide, by decide⟩

/-- C2 amended: each SectionKind key appears at most once in the parsed map
(its keys are pairwise distinct for every input); but on a repeated marker
the second occurrence's content replaces the first (last-write-wins), as
the counterexample shows. -/
theorem C2_keys_at_most_once (t : Str) :
    ((parse_cv_sections t).map Prod.fst).Nodup :=
  parse_keys_nodup t

/-! ### Claim C9 -/

/-- C9 counterexample: the section map the formatter operates on is
`parse_cv_sections` of the raw text, which differs from parsing the
sanitized text (sanitization collapses newlines, destroying the header
structure); so sanitization does not precede section parsing. -/
theorem C9_sanitize_before_parse_cex :
    format_cv_section_map "EDUCATION\nMIT".toList =
        parse_cv_sections "EDUCATION\nMIT".toList ∧
      format_cv_section_map "EDUCATION\nMIT".toList ≠
        parse_cv_sections (sanitize_text "EDUCATION\nMIT".toList) := by
  exact ⟨rfl, by decide⟩

/-- C9 amended: the formatter parses the raw input text
(`format_cv_section_map t = parse_cv_sections t`); sanitization is instead
applied inside each text-run emission, where pre-sanitizing the run would
not change the emitted lines because the wrapper sanitizes its input and
the sanitizer is idempotent. -/
theorem C9_sanitize_per_run (measure : Str → Int) (width : Int) (t : Str) :
    format_cv_section_map t = parse_cv_sections t ∧
      add_wrapped_text measure width (sanitize_text t) =
        add_wrapped_text measure width t := by
  refine ⟨rfl, ?_⟩
  unfold add_wrapped_text
  rw [sanitize_text_idem]

/-! ### Claim C1 -/

/-- C1 counterexample: a document whose Experience section holds exactly two
entry blocks separated by a blank line yields one ExperienceEntry, not two:
the parser drops the blank line, so the two blocks merge. -/
theorem C1_two_blocks_one_entry_cex :
    (splitOnSeq nlnl
        "Engineer | Acme\n2020-2022\n\nDev | Foo\n2021-2023".toList).length
        = 2 ∧
      (format_cv_experience
        "EXPERIENCE\nEngineer | Acme\n2020-2022\n\nDev | Foo\n2021-2023".toList).length
        = 1 ∧
      (format_cv_experience
        "EXPERIENCE\nEngineer | Acme\n2020-2022\n\nDev | Foo\n2021-2023".toList).length
        ≠ 2 := by
  exact ⟨by decide, by decide, by decide⟩

/-- C1 amended: because the section parser drops blank lines, the parsed
content of an Experience section never splits into more than one block, so
the full pipeline yields at most one ExperienceEntry from it — a document
whose Experience block held two blank-line-separated entries yields one
record, not two. -/
theorem C1_parsed_experience_at_most_one (t m v : Str)
    (hm : m ∈ exp_sections)
    (hv : dictGet (parse_cv_sections t) m = some v) :
    (format_experience_entries v).length ≤ 1 :=
  format_entries_le_one (parse_sections_good t (m, v) (dictGet_mem hv))

/-- Witness for the amended C1 at the counterexample document. -/
theorem C1_parsed_experience_at_most_one_witness :
    (format_experience_entries
        "Engineer | Acme\n2020-2022\nDev | Foo\n2021-2023".toList).length ≤ 1 :=
  C1_parsed_experience_at_most_one
    "EXPERIENCE\nEngineer | Acme\n2020-2022\n\nDev | Foo\n2021-2023".toList
    "EXPERIENCE".toList
    "Engineer | Acme\n2020-2022\nDev | Foo\n2021-2023".toList
    (by decide) (by decide)

/-! ### Claim C8 -/

/-- C8: an Experience section whose parsed content forms a single entry block
of exactly one non-empty line produces zero ExperienceEntry records: the
single-line block is silently dropped, and no error is raised (the splitter
is a total function). -/
theorem C8_single_line_block_dropped (t m v l : Str)
    (hm : m ∈ exp_sections)
    (hv : dictGet (parse_cv_sections t) m = some v)
    (hl : ((splitLines v).map pyStrip).filter (fun x => decide (x ≠ [])) = [l]) :
    format_experience_entries v = [] := by
  have hg : GoodContent v := parse_sections_good t (m, v) (dictGet_mem hv)
  obtain ⟨hvl, hne, hstrip, hnl⟩ := good_single_line hg hl
  rw [hvl]
  exact format_entries_single_line hne hstrip hnl

/-- Witness for C8: a header-only Experience block yields zero entries. -/
theorem C8_single_line_block_dropped_witness :
    format_experience_entries "Engineer | Acme".toList = [] :=
  C8_single_line_block_dropped "EXPERIENCE\nEngineer | Acme".toList
    "EXPERIENCE".toList "Engineer | Acme".toList "Engineer | Acme".toList
    (by decide) (by decide) (by decide)

/-! ### Claim C5 -/

/-- C5 counterexample: the header `"A - B | C"` contains both `"|"` and
`" - "`; the claim says the split happens at `"|"` (role `"A - B"`, company
`"C"`), but the composed pipeline re-splits the pre-`"|"` part at `" - "`,
producing role `"A"` and company `"B"` and discarding `"C"`. -/
theorem C5_pipe_precedence_cex :
    pipeline_role_company "A - B | C".toList =
        some ("A".toList, "B".toList) ∧
      pipeline_role_company "A - B | C".toList ≠
        some ("A - B".toList, "C".toList) := by
  exact ⟨by decide, by decide⟩

/-- C5 amended: the composed recovery first splits at `"|"` (in `format_cv`),
but `add_experience` then re-splits the stripped pre-`"|"` part with `" - "`
at the highest priority: when the pre-`"|"` part contains `" - "` the split
happens there and the `"|"` company is discarded; when it contains neither
`" - "` nor a case-insensitive `" at "`, the `"|"` split stands; and a line
with none of the delimiters becomes the role with an empty company. -/
theorem C5_delimiter_priority (line : Str) :
    (hasSub ['|'] line = true →
      hasSub " - ".toList (pyStrip (pySplit1 ['|'] line).1) = true →
      pipeline_role_company line =
        some (pyStrip (pySplit1 " - ".toList
              (pyStrip (pySplit1 ['|'] line).1)).1,
          pyStrip (pySplit1 " - ".toList
              (pyStrip (pySplit1 ['|'] line).1)).2)) ∧
    (hasSub ['|'] line = true →
      hasSub " - ".toList (pyStrip (pySplit1 ['|'] line).1) = false →
      hasSub " at ".toList
          ((pyStrip (pySplit1 ['|'] line).1).map Char.toLower) = false →
      pipeline_role_company line =
        some (pyStrip (pySplit1 ['|'] line).1,
          pyStrip (pySplit1 ['|'] line).2)) ∧
    (hasSub ['|'] line = false →
      hasSub " - ".toList (pyStrip line) = false →
      hasSub " at ".toList ((pyStrip line).map Char.toLower) = false →
      pipeline_role_company line = some (pyStrip line, [])) := by
  refine ⟨?_, ?_, ?_⟩
  · intro hp hd
    unfold pipeline_role_company
    rw [if_pos hp]
    unfold add_experience_role_company
    rw [if_pos hd]
  · intro hp hd hat
    unfold pipeline_role_company
    rw [if_pos hp]
    unfold add_experience_role_company
    rw [if_neg (by rw [hd]; exact Bool.false_ne_true),
      if_neg (by rw [hat]; exact Bool.false_ne_true),
      if_neg (by rw [pre_pipe_no_pipe line hp]; exact Bool.false_ne_true)]
    rw [pyStrip_idem, pyStrip_idem]
  · intro hp hd hat
    unfold pipeline_role_company
    rw [if_neg (by rw [hp]; exact Bool.false_ne_true)]
    unfold add_experience_role_company
    rw [if_neg (by rw [hd]; exact Bool.false_ne_true),
      if_neg (by rw [hat]; exact Bool.false_ne_true),
      if_neg (by rw [no_pipe_strip line hp]; exact Bool.false_ne_true)]
    rw [pyStrip_idem]
    rfl


/-- Witness for the amended C5 at three concrete header lines, one per
delimiter case. -/
theorem C5_delimiter_priority_witness :
    pipeline_role_company "X - Y | Z".toList =
        some (pyStrip (pySplit1 " - ".toList
              (pyStrip (pySplit1 ['|'] "X - Y | Z".toList).1)).1,
          pyStrip (pySplit1 " - ".toList
              (pyStrip (pySplit1 ['|'] "X - Y | Z".toList).1)).2) ∧
      pipeline_role_company "A | B".toList =
        some (pyStrip (pySplit1 ['|'] "A | B".toList).1,
          pyStrip (pySplit1 ['|'] "A | B".toList).2) ∧
      pipeline_role_company "Singer".toList =
        some (pyStrip "Singer".toList, []) :=
  ⟨(C5_delimiter_priority "X - Y | Z".toList).1 (by decide) (by decide),
   (C5_delimiter_priority "A | B".toList).2.1 (by decide) (by decide)
     (by decide),
   (C5_delimiter_priority "Singer".toList).2.2 (by decide) (by decide)
     (by decide)⟩

/-! ### Claim C7 -/

/-- C7 counterexample: the claim says the wrapper fails with an InvalidLayout
condition exactly when availableWidth ≤ 0; the code has no failure path at
all: at width -3 the wrapper succeeds and emits each word as its own
line. -/
theorem C7_invalid_layout_cex :
    add_wrapped_text (fun s => (s.length : Int)) (-3) "a b".toList =
      ["a".toList, "b".toList] := by decide

/-- C7 amended: the wrapper never fails for any availableWidth — it is a
total function; when availableWidth ≤ 0 and the measurement is positive on
non-empty strings, every word is emitted as its own (overflowing) line. -/
theorem C7_wrapper_never_fails (measure : Str → Int) (width : Int) (text : Str)
    (hm : ∀ s : Str, s ≠ [] → 0 < measure s) (hw : width ≤ 0) :
    add_wrapped_text measure width text = pySplitWs (sanitize_text text) := by
  unfold add_wrapped_text
  exact wrapAux_all_own_line measure width hm hw _
    (fun w hwm => (goodWords_splitWs (sanitize_text text) w hwm).1)

/-- Witness for the amended C7 at width 0. -/
theorem C7_wrapper_never_fails_witness :
    add_wrapped_text (fun s => (s.length : Int)) 0 "hello world".toList =
      pySplitWs (sanitize_text "hello world".toList) :=
  C7_wrapper_never_fails (fun s => (s.length : Int)) 0 "hello world".toList
    (fun s hs => by
      show (0 : Int) < (s.length : Int)
      exact_mod_cast List.length_pos.mpr hs) (by decide)

/-! ### Claim C3 -/

set_option maxHeartbeats 8000000 in
/-- C3: for the greedy wrapper with a positive width: every emitted line with
at least two words measures within the width; a word met with an empty
candidate is emitted as its own line whenever its own measure exceeds the
width; no input word is dropped (the emitted lines' words concatenate back
to the input words, which also shows the wrapper is total on every finite
input); and the documented scenario "a" followed by one over-wide word
yields exactly the two lines "a" and the over-wide word. -/
theorem C3_greedy_wrap (measure : Str → Int) (width : Int) (text : Str)
    (hpos : 0 < width) :
    (∀ L ∈ add_wrapped_text measure width text,
        2 ≤ (pySplitWs L).length → measure L ≤ width) ∧
      (add_wrapped_text measure width text).flatMap pySplitWs =
        pySplitWs (sanitize_text text) ∧
      (∀ (w : Str) (ws : List Str), width < measure w →
        wrapAux measure width (w :: ws) [] = w :: wrapAux measure width ws []) ∧
      add_wrapped_text (fun s => (s.length : Int)) 10
          "a bbbbbbbbbbbb".toList =
        ["a".toList, "bbbbbbbbbbbb".toList] := by
  refine ⟨?_, ?_, ?_, by decide⟩
  · exact fun L hL => wrapAux_lines_le measure width _ []
      (goodWords_splitWs _) goodWords_nil (by intro h; simp at h) L hL
  · exact wrapAux_flat measure width _ [] (goodWords_splitWs _) goodWords_nil
  · exact fun w ws h => wrapAux_overflow_single measure width w ws h

set_option maxHeartbeats 8000000 in
/-- Witness for C3 at a concrete wrap. -/
theorem C3_greedy_wrap_witness :
    (add_wrapped_text (fun s => (s.length : Int)) 10
        "a bbbbbbbbbbbb".toList).flatMap pySplitWs =
      pySplitWs (sanitize_text "a bbbbbbbbbbbb".toList) :=
  (C3_greedy_wrap (fun s => (s.length : Int)) 10 "a bbbbbbbbbbbb".toList
    (by decide)).2.1

/-! ### Claim C6 -/

/-- C6: every line emitted by the bullet renderer — the first line and every
continuation line — is placed at the hanging-indent x-offset
`startX + indent + 5`; for a non-negative indent that offset strictly
exceeds the left margin `startX`, so no continuation line is ever placed at
the left margin. -/
theorem C6_bullet_hanging_indent (measure : Str → Int)
    (w rMargin startX indent : Int) (text : Str) (hind : 0 ≤ indent) :
    ∀ pl ∈ add_bullet_point measure w rMargin startX indent text,
      pl.1 = startX + indent + 5 ∧ startX < pl.1 := by
  intro pl hpl
  unfold add_bullet_point at hpl
  rw [List.mem_map] at hpl
  obtain ⟨L, _, hL⟩ := hpl
  rw [← hL]
  exact ⟨rfl, by omega⟩

/-- Witness for C6 at a concrete bullet block. -/
theorem C6_bullet_hanging_indent_witness :
    ((25 : Int), "hi".toList).1 = 15 + 5 + 5 ∧
      (15 : Int) < ((25 : Int), "hi".toList).1 :=
  C6_bullet_hanging_indent (fun s => (s.length : Int)) 100 10 15 5
    "hi".toList (by decide) ((25 : Int), "hi".toList) (by decide)


end CvOptimizer
